import Mathlib

/-!
Shallow embedding of the differential-logic repository (src/src/lib.rs):
a permutation-indexed boolean state machine. Terms are non-repeating
sequences over the universe {0, …, n-1}; a Machine assigns a boolean to
every term, and flip propagates toggles to suffix terms.
-/

/-- Embeds the cached table built in the Rust function index_to_term:
the k-permutations of the list l, in the order produced by itertools
permutations when l is the source iterator (lexicographic in source
positions: each element x of l in order, prepended to every
k-permutation of l with x removed). -/
def kpermutations : Nat → List Nat → List (List Nat)
  | 0, _ => [[]]
  | k + 1, l => l.bind (fun x => (kpermutations k (l.erase x)).map (fun p => x :: p))

/-- Embeds index_to_term from the source: the full term table for a
universe of the given size, obtained by concatenating, for each length
len in 1..=vars, all len-permutations of 0..vars. -/
def indexToTerm (vars : Nat) : List (List Nat) :=
  (List.range vars).bind (fun i => kpermutations (i + 1) (List.range vars))

/-- First-match index lookup in a list of terms. -/
def idxOf? (t : List Nat) : List (List Nat) → Option Nat
  | [] => none
  | s :: rest => if s = t then some 0 else (idxOf? t rest).map (· + 1)

/-- Embeds term_to_index from the source: the HashMap from each term of
the table to its position, as an Option-valued function. The table is
duplicate-free, so the first match equals the unique match the HashMap
stores; a missing key (a Rust panic site) is none. -/
def termToIndex (vars : Nat) (t : List Nat) : Option Nat :=
  idxOf? t (indexToTerm vars)

/-- Embeds the Rust helper factorial: the product of 1..=n. -/
def factorial (n : Nat) : Nat :=
  ((List.range n).map (· + 1)).prod

/-- Embeds the Rust helper permutations(n, k) = n! / (n - k)! with
truncating natural division, as in the source. -/
def permutations (n k : Nat) : Nat :=
  factorial n / factorial (n - k)

/-- Embeds the signature length computed in Machine::all:
(1..=vars).map(|k| permutations(vars, k)).sum(). -/
def signatureLength (vars : Nat) : Nat :=
  ((List.range vars).map (fun i => permutations vars (i + 1))).sum

/-- Embeds the Rust struct Machine: a universe size and the dense value
array aligned with the term table. -/
structure Machine where
  vars : Nat
  values : List Bool
deriving DecidableEq, Repr

/-- Embeds Machine::new: the producer is invoked once per term, in term
table order, and the results populate the value array. -/
def Machine.new (vars : Nat) (producer : List Nat → Bool) : Machine :=
  { vars := vars, values := (indexToTerm vars).map producer }

/-- Cartesian product of a list of lists, with the first factor varying
slowest, as nested loops would produce. -/
def listProd : List (List Bool) → List (List Bool)
  | [] => [[]]
  | l :: ls => l.bind (fun x => (listProd ls).map (fun p => x :: p))

/-- Embeds itertools multi_cartesian_product as used in Machine::all.
When the outer iterator is empty, itertools yields no elements at all
(not a single empty vector); otherwise it yields the full product. -/
def multiCartesianProduct (ls : List (List Bool)) : List (List Bool) :=
  if ls.isEmpty then [] else listProd ls

/-- Embeds Machine::all: one machine per boolean signature of length
signatureLength vars. The Rust closure is a stateful FnMut that
returns signature[term_index] for its term_index-th invocation; since
Machine::new calls the producer once per table entry in order, the i-th
value is signature[i]. The index is always in range because the
signature length equals the table length (length_indexToTerm below). -/
def Machine.all (vars : Nat) : List Machine :=
  (multiCartesianProduct (List.replicate (signatureLength vars) [false, true])).map
    (fun signature =>
      { vars := vars
        values := (List.range (indexToTerm vars).length).map
          (fun i => signature.getD i false) })

/-- Embeds the Rust statement values[i] ^= true, with out-of-range i a
no-op here (the call sites guard the range, mirroring the panic). -/
def toggleIdx (values : List Bool) (i : Nat) : List Bool :=
  values.set i (!(values.getD i false))

/-- Embeds the selection pass of Machine::flip: scanning the (index,
value) pairs of the value array, each index is looked up in the term
table (a Rust panic if out of range, hence none), its first element is
taken (a panic on an empty term, hence none), and for entries whose
term starts with the flipped variable and whose value is true the
non-empty suffixes term[1..] are collected, preserving scan order. -/
def collectSuffixes (table : List (List Nat)) (v : Nat) :
    List (Nat × Bool) → Option (List (List Nat))
  | [] => some []
  | (i, b) :: rest =>
    match table[i]? with
    | none => none
    | some t =>
      match t.head? with
      | none => none
      | some h =>
        match collectSuffixes table v rest with
        | none => none
        | some acc =>
          if h = v ∧ b = true then
            if t.tail.isEmpty then some acc else some (t.tail :: acc)
          else some acc

/-- Embeds the apply pass of Machine::flip: each collected suffix is
looked up in the index map (a missing key is a Rust panic, hence none)
and its slot is toggled; an out-of-range slot is likewise none. -/
def applyToggles (vars : Nat) : List Bool → List (List Nat) → Option (List Bool)
  | values, [] => some values
  | values, t :: rest =>
    match termToIndex vars t with
    | none => none
    | some j =>
      if j < values.length then applyToggles vars (toggleIdx values j) rest
      else none

/-- Embeds Machine::flip. The Rust function panics on a missing index
for [variable] or a malformed table/value-array pairing; those panic
sites are modelled as none. -/
def Machine.flip? (m : Machine) (v : Nat) : Option Machine :=
  match termToIndex m.vars [v] with
  | none => none
  | some i =>
    if i < m.values.length then
      let values1 := toggleIdx m.values i
      match collectSuffixes (indexToTerm m.vars) v values1.enum with
      | none => none
      | some suffixes =>
        match applyToggles m.vars values1 suffixes with
        | none => none
        | some values2 => some { vars := m.vars, values := values2 }
    else none

/-- Embeds Machine::get: the value stored for the singleton term
[variable]; the panic on a missing key or slot is none. -/
def Machine.get? (m : Machine) (v : Nat) : Option Bool :=
  match termToIndex m.vars [v] with
  | none => none
  | some i => m.values[i]?

/-- Embeds Machine::set: flip when the current value differs from the
requested one, otherwise do nothing. -/
def Machine.set? (m : Machine) (v : Nat) (value : Bool) : Option Machine :=
  match m.get? v with
  | none => none
  | some current => if current ≠ value then m.flip? v else some m

/-- The representation invariant of Machine (spec section 3): the value
array always has exactly one entry per term of the table. Machines
built by Machine.new and Machine.all satisfy it and flip preserves it. -/
def Machine.WF (m : Machine) : Prop :=
  m.values.length = (indexToTerm m.vars).length

/-- Modelled from the spec (section 4.3, step 2): the snapshot of
suffixes to flip, read off the already-mutated value array: for every
term whose first element is the flipped variable and whose current
value is true, the suffix obtained by dropping the first element,
keeping only non-empty suffixes. -/
def selectedSuffixes (table : List (List Nat)) (values : List Bool) (v : Nat) :
    List (List Nat) :=
  (((table.zip values).filter (fun p => decide (p.1.head? = some v) && p.2)).map
    (fun p => p.1.tail)).filter (fun s => !s.isEmpty)

/-- Modelled from the spec (section 4.3): the two-phase flip. First the
singleton slot is toggled; then the set of suffixes to flip is fully
determined from the mutated array before any suffix toggle is applied;
finally each collected suffix slot is toggled. -/
def flipTwoPhase (m : Machine) (v : Nat) : Machine :=
  let i := (termToIndex m.vars [v]).getD 0
  let values1 := toggleIdx m.values i
  let suffixes := selectedSuffixes (indexToTerm m.vars) values1 v
  { vars := m.vars
    values := suffixes.foldl
      (fun vs s => toggleIdx vs ((termToIndex m.vars s).getD 0)) values1 }

/-! ## Lookup lemmas for idxOf? -/

theorem idxOf?_eq_none_iff {t : List Nat} :
    ∀ {l : List (List Nat)}, idxOf? t l = none ↔ t ∉ l := by
  intro l
  induction l with
  | nil => simp [idxOf?]
  | cons s rest ih =>
    by_cases hs : s = t
    · subst hs; simp [idxOf?]
    · simp [idxOf?, hs, ih, Ne.symm hs]

theorem idxOf?_mem {t : List Nat} :
    ∀ {l : List (List Nat)}, t ∈ l → ∃ i, idxOf? t l = some i ∧ l[i]? = some t := by
  intro l
  induction l with
  | nil => simp
  | cons s rest ih =>
    intro ht
    by_cases hs : s = t
    · exact ⟨0, by simp [idxOf?, hs], by simp [hs]⟩
    · rcases List.mem_cons.mp ht with h | h
      · exact absurd h.symm hs
      · obtain ⟨i, hi, hget⟩ := ih h
        exact ⟨i + 1, by simp [idxOf?, hs, hi], by simpa using hget⟩

theorem idxOf?_of_getElem? {t : List Nat} :
    ∀ {l : List (List Nat)} {i : Nat}, l.Nodup → l[i]? = some t → idxOf? t l = some i := by
  intro l
  induction l with
  | nil => simp
  | cons s rest ih =>
    intro i hnd hget
    rcases List.nodup_cons.mp hnd with ⟨hs, hrest⟩
    cases i with
    | zero =>
      simp only [List.getElem?_cons_zero, Option.some.injEq] at hget
      simp [idxOf?, hget]
    | succ i =>
      simp only [List.getElem?_cons_succ] at hget
      have hne : s ≠ t := by
        rintro rfl
        exact hs (List.getElem?_mem hget)
      simp [idxOf?, hne, ih hrest hget]

/-! ## Lemmas about kpermutations -/

theorem length_of_mem_kpermutations {k : Nat} :
    ∀ {l p : List Nat}, p ∈ kpermutations k l → p.length = k := by
  induction k with
  | zero =>
    intro l p hp
    simp only [kpermutations, List.mem_singleton] at hp
    simp [hp]
  | succ k ih =>
    intro l p hp
    simp only [kpermutations, List.mem_bind, List.mem_map] at hp
    obtain ⟨x, _, q, hq, rfl⟩ := hp
    simp [ih hq]

theorem mem_kpermutations {k : Nat} :
    ∀ {l p : List Nat}, l.Nodup →
      (p ∈ kpermutations k l ↔ p.length = k ∧ p.Nodup ∧ ∀ a ∈ p, a ∈ l) := by
  induction k with
  | zero =>
    intro l p _
    constructor
    · intro hp
      simp only [kpermutations, List.mem_singleton] at hp
      simp [hp]
    · rintro ⟨hlen, -, -⟩
      rw [List.length_eq_zero] at hlen
      simp [kpermutations, hlen]
  | succ k ih =>
    intro l p hl
    constructor
    · intro hp
      simp only [kpermutations, List.mem_bind, List.mem_map] at hp
      obtain ⟨x, hx, q, hq, rfl⟩ := hp
      obtain ⟨hqlen, hqnd, hqsub⟩ := (ih (hl.erase x)).mp hq
      refine ⟨by simp [hqlen], ?_, ?_⟩
      · refine List.nodup_cons.mpr ⟨?_, hqnd⟩
        intro hxq
        exact hl.not_mem_erase (hqsub x hxq)
      · intro a ha
        rcases List.mem_cons.mp ha with rfl | ha
        · exact hx
        · exact List.mem_of_mem_erase (hqsub a ha)
    · rintro ⟨hlen, hnd, hsub⟩
      match p with
      | x :: q =>
        rcases List.nodup_cons.mp hnd with ⟨hxq, hqnd⟩
        have hx : x ∈ l := hsub x (by simp)
        have hqsub : ∀ a ∈ q, a ∈ l.erase x := by
          intro a ha
          have hax : a ≠ x := fun h => hxq (h ▸ ha)
          exact (List.mem_erase_of_ne hax).mpr (hsub a (by simp [ha]))
        have hq : q ∈ kpermutations k (l.erase x) :=
          (ih (hl.erase x)).mpr ⟨by simpa using hlen, hqnd, hqsub⟩
        simp only [kpermutations, List.mem_bind, List.mem_map]
        exact ⟨x, hx, q, hq, rfl⟩

theorem pairwise_bind {α β : Type} {R : β → β → Prop} {f : α → List β} :
    ∀ {l : List α},
      (∀ a ∈ l, (f a).Pairwise R) →
      l.Pairwise (fun a b => ∀ x ∈ f a, ∀ y ∈ f b, R x y) →
      (l.bind f).Pairwise R := by
  intro l
  induction l with
  | nil => simp
  | cons a l ih =>
    intro h1 h2
    rw [show (a :: l).bind f = f a ++ l.bind f from rfl, List.pairwise_append]
    rcases List.pairwise_cons.mp h2 with ⟨ha, h2'⟩
    refine ⟨h1 a (by simp), ih (fun b hb => h1 b (by simp [hb])) h2', ?_⟩
    intro x hx y hy
    obtain ⟨b, hb, hyb⟩ := List.mem_bind.mp hy
    exact ha b hb x hx y hyb

theorem lex_lt_irrefl : ∀ (t : List Nat), ¬ List.Lex (· < ·) t t := by
  intro t
  induction t with
  | nil => intro h; cases h
  | cons a t ih =>
    intro h
    cases h with
    | cons h => exact ih h
    | rel h => exact lt_irrefl a h

theorem kpermutations_pairwise_lex {k : Nat} :
    ∀ {l : List Nat}, l.Pairwise (· < ·) →
      (kpermutations k l).Pairwise (List.Lex (· < ·)) := by
  induction k with
  | zero =>
    intro l _
    simp [kpermutations]
  | succ k ih =>
    intro l hl
    rw [kpermutations]
    refine pairwise_bind ?_ ?_
    · intro x _
      rw [List.pairwise_map]
      have hsorted : (l.erase x).Pairwise (· < ·) :=
        hl.sublist (List.erase_sublist x l)
      exact (ih hsorted).imp (fun h => List.Lex.cons h)
    · refine hl.imp_of_mem ?_
      intro x y _ _ hxy p hp q hq
      obtain ⟨p', _, rfl⟩ := List.mem_map.mp hp
      obtain ⟨q', _, rfl⟩ := List.mem_map.mp hq
      exact List.Lex.rel hxy

theorem kpermutations_length {k : Nat} :
    ∀ {l : List Nat}, l.Nodup →
      (kpermutations k l).length = l.length.descFactorial k := by
  induction k with
  | zero => intro l _; simp [kpermutations]
  | succ k ih =>
    intro l hl
    rw [kpermutations, List.length_bind]
    have hcongr : ∀ x ∈ l,
        ((kpermutations k (l.erase x)).map (fun p => x :: p)).length =
          (l.length - 1).descFactorial k := by
      intro x hx
      rw [List.length_map, ih (hl.erase x), List.length_erase_of_mem hx]
    simp only [Function.comp_def]
    rw [List.map_congr_left hcongr]
    match l with
    | [] => simp
    | a :: l' =>
      rw [List.map_const', List.sum_replicate, smul_eq_mul]
      simp only [List.length_cons, Nat.add_sub_cancel, Nat.succ_descFactorial_succ]

/-! ## Lemmas about the term table indexToTerm -/

/-- The enumeration order of the term table: strictly shorter terms come
first, and terms of equal length are in lexicographic order. -/
def termOrder (s t : List Nat) : Prop :=
  s.length < t.length ∨ (s.length = t.length ∧ List.Lex (· < ·) s t)

theorem termOrder_irrefl (t : List Nat) : ¬ termOrder t t := by
  rintro (h | ⟨-, h⟩)
  · exact lt_irrefl _ h
  · exact lex_lt_irrefl t h

theorem mem_indexToTerm {n : Nat} {t : List Nat} :
    t ∈ indexToTerm n ↔ t ≠ [] ∧ t.Nodup ∧ ∀ a ∈ t, a < n := by
  constructor
  · intro ht
    obtain ⟨i, _, hti⟩ := List.mem_bind.mp ht
    obtain ⟨hlen, hnd, hsub⟩ := (mem_kpermutations (List.nodup_range n)).mp hti
    refine ⟨?_, hnd, ?_⟩
    · intro h
      rw [h] at hlen
      simp at hlen
    · intro a ha
      exact List.mem_range.mp (hsub a ha)
  · rintro ⟨hne, hnd, hlt⟩
    have hlenle : t.length ≤ n := by
      have := (hnd.subperm (fun a ha => List.mem_range.mpr (hlt a ha))).length_le
      simpa using this
    have hpos : 0 < t.length := List.length_pos.mpr hne
    refine List.mem_bind.mpr ⟨t.length - 1, List.mem_range.mpr (by omega), ?_⟩
    refine (mem_kpermutations (List.nodup_range n)).mpr ⟨by omega, hnd, ?_⟩
    intro a ha
    exact List.mem_range.mpr (hlt a ha)

theorem indexToTerm_pairwise (n : Nat) : (indexToTerm n).Pairwise termOrder := by
  refine pairwise_bind ?_ ?_
  · intro i _
    refine (kpermutations_pairwise_lex (List.pairwise_lt_range n)).imp_of_mem ?_
    intro p q hp hq hlex
    right
    rw [length_of_mem_kpermutations hp, length_of_mem_kpermutations hq]
    exact ⟨rfl, hlex⟩
  · refine (List.pairwise_lt_range n).imp_of_mem ?_
    intro i j _ _ hij p hp q hq
    left
    rw [length_of_mem_kpermutations hp, length_of_mem_kpermutations hq]
    omega

theorem indexToTerm_nodup (n : Nat) : (indexToTerm n).Nodup := by
  refine (indexToTerm_pairwise n).imp ?_
  intro s t hst
  rintro rfl
  exact termOrder_irrefl s hst

theorem factorial_eq (n : Nat) : factorial n = Nat.factorial n := by
  induction n with
  | zero => simp [factorial]
  | succ n ih =>
    rw [factorial, List.range_succ, List.map_append, List.prod_append]
    rw [factorial] at ih
    rw [ih]
    simp [Nat.factorial_succ, Nat.mul_comm]

theorem length_indexToTerm (n : Nat) : (indexToTerm n).length = signatureLength n := by
  rw [indexToTerm, signatureLength, List.length_bind]
  refine congrArg List.sum (List.map_congr_left ?_)
  intro i hi
  have hi' : i < n := List.mem_range.mp hi
  simp only [Function.comp_def]
  rw [kpermutations_length (List.nodup_range n), List.length_range]
  rw [permutations, factorial_eq, factorial_eq]
  exact Nat.descFactorial_eq_div (by omega)

theorem termToIndex_mem {n : Nat} {t : List Nat} (h : t ∈ indexToTerm n) :
    ∃ i, termToIndex n t = some i ∧ (indexToTerm n)[i]? = some t :=
  idxOf?_mem h

theorem termToIndex_of_getElem? {n i : Nat} {t : List Nat}
    (h : (indexToTerm n)[i]? = some t) : termToIndex n t = some i :=
  idxOf?_of_getElem? (indexToTerm_nodup n) h

theorem termToIndex_eq_none_iff {n : Nat} {t : List Nat} :
    termToIndex n t = none ↔ t ∉ indexToTerm n :=
  idxOf?_eq_none_iff

theorem singleton_mem_indexToTerm {n v : Nat} (h : v < n) : [v] ∈ indexToTerm n := by
  rw [mem_indexToTerm]
  exact ⟨by simp, by simp, by simpa using h⟩

theorem singleton_not_mem_indexToTerm {n v : Nat} (h : n ≤ v) : [v] ∉ indexToTerm n := by
  rw [mem_indexToTerm]
  rintro ⟨-, -, hlt⟩
  have := hlt v (by simp)
  omega

theorem ne_nil_of_mem_indexToTerm {n : Nat} {t : List Nat} (h : t ∈ indexToTerm n) :
    t ≠ [] :=
  (mem_indexToTerm.mp h).1

/-! ## Lemmas about listProd and Machine.all -/

theorem mem_listProd_replicate {T : Nat} :
    ∀ {l : List Bool}, l ∈ listProd (List.replicate T [false, true]) ↔ l.length = T := by
  induction T with
  | zero =>
    intro l
    simp only [List.replicate_zero, listProd, List.mem_singleton, List.length_eq_zero]
  | succ T ih =>
    intro l
    rw [List.replicate_succ, listProd]
    constructor
    · intro hl
      obtain ⟨x, _, p, hp, rfl⟩ := by
        simpa only [List.mem_bind, List.mem_map] using hl
      simp [ih.mp hp]
    · intro hl
      match l with
      | b :: p =>
        refine List.mem_bind.mpr ⟨b, by cases b <;> simp, ?_⟩
        refine List.mem_map.mpr ⟨p, ih.mpr (by simpa using hl), rfl⟩

theorem listProd_replicate_nodup (T : Nat) :
    (listProd (List.replicate T [false, true])).Nodup := by
  induction T with
  | zero => simp [listProd]
  | succ T ih =>
    rw [List.replicate_succ, listProd]
    refine pairwise_bind ?_ ?_
    · intro x _
      exact ih.map (fun p q h => by injection h)
    · refine List.pairwise_cons.mpr ⟨?_, by simp⟩
      intro y hy p hp q hq
      obtain ⟨p', -, rfl⟩ := List.mem_map.mp hp
      obtain ⟨q', -, rfl⟩ := List.mem_map.mp hq
      have hy' : y = true := by simpa using hy
      subst hy'
      intro h
      injection h with h1 h2
      exact Bool.false_ne_true h1

theorem listProd_replicate_length (T : Nat) :
    (listProd (List.replicate T [false, true])).length = 2 ^ T := by
  induction T with
  | zero => simp [listProd]
  | succ T ih =>
    rw [List.replicate_succ, listProd, List.length_bind]
    simp only [Function.comp_def, List.length_map, ih]
    simp only [List.map_cons, List.map_nil, List.sum_cons, List.sum_nil]
    rw [Nat.pow_succ]
    omega

theorem map_getD_range {l : List Bool} :
    (List.range l.length).map (fun i => l.getD i false) = l := by
  apply List.ext_getElem
  · simp
  · intro i h1 h2
    rw [List.getElem_map, List.getElem_range]
    rw [List.getD_eq_getElem?_getD, List.getElem?_eq_getElem h2]
    rfl

/-! ## Toggle algebra -/

theorem length_toggleIdx (values : List Bool) (i : Nat) :
    (toggleIdx values i).length = values.length := by
  simp [toggleIdx]

theorem getD_set_ne {values : List Bool} {i j : Nat} (h : i ≠ j) (a : Bool) :
    (values.set i a).getD j false = values.getD j false := by
  rw [List.getD_eq_getElem?_getD, List.getElem?_set_ne h, ← List.getD_eq_getElem?_getD]

theorem getElem?_toggleIdx_self {values : List Bool} {i : Nat} (h : i < values.length) :
    (toggleIdx values i)[i]? = some (!(values.getD i false)) := by
  simp [toggleIdx, List.getElem?_set_self h]

theorem getElem?_toggleIdx_ne {values : List Bool} {i j : Nat} (h : i ≠ j) :
    (toggleIdx values i)[j]? = values[j]? := by
  simp [toggleIdx, List.getElem?_set_ne h]

theorem set_getD_self : ∀ (values : List Bool) (i : Nat),
    values.set i (values.getD i false) = values := by
  intro values
  induction values with
  | nil => intro i; simp
  | cons b rest ih =>
    intro i
    cases i with
    | zero => simp
    | succ i => simpa using ih i

theorem toggleIdx_toggleIdx (values : List Bool) (i : Nat) :
    toggleIdx (toggleIdx values i) i = values := by
  by_cases h : i < values.length
  · show (toggleIdx values i).set i (!((toggleIdx values i).getD i false)) = values
    rw [List.getD_eq_getElem?_getD, getElem?_toggleIdx_self h]
    show (values.set i _).set i (!!(values.getD i false)) = values
    rw [List.set_set, Bool.not_not, set_getD_self]
  · have h' : values.length ≤ i := le_of_not_lt h
    show (toggleIdx values i).set i _ = values
    rw [toggleIdx, List.set_eq_of_length_le h', List.set_eq_of_length_le h']

theorem toggleIdx_comm (values : List Bool) (i j : Nat) :
    toggleIdx (toggleIdx values i) j = toggleIdx (toggleIdx values j) i := by
  by_cases hij : i = j
  · subst hij; rfl
  · simp only [toggleIdx]
    rw [getD_set_ne hij, getD_set_ne (Ne.symm hij)]
    exact List.set_comm _ _ _ hij

theorem toggleIdx_foldl (js : List Nat) :
    ∀ (values : List Bool) (i : Nat),
      toggleIdx (js.foldl toggleIdx values) i = js.foldl toggleIdx (toggleIdx values i) := by
  induction js with
  | nil => intro values i; rfl
  | cons j js ih =>
    intro values i
    rw [List.foldl_cons, List.foldl_cons, ih, toggleIdx_comm]

theorem foldl_toggleIdx_cancel (js : List Nat) :
    ∀ (values : List Bool), js.foldl toggleIdx (js.foldl toggleIdx values) = values := by
  induction js with
  | nil => intro values; rfl
  | cons j js ih =>
    intro values
    rw [List.foldl_cons, List.foldl_cons, toggleIdx_foldl, toggleIdx_toggleIdx, ih]

theorem length_foldl_toggleIdx (js : List Nat) :
    ∀ (values : List Bool), (js.foldl toggleIdx values).length = values.length := by
  induction js with
  | nil => intro values; rfl
  | cons j js ih =>
    intro values
    rw [List.foldl_cons, ih, length_toggleIdx]

theorem getElem?_foldl_toggleIdx_not_mem {idx : Nat} :
    ∀ {js : List Nat} (values : List Bool), idx ∉ js →
      (js.foldl toggleIdx values)[idx]? = values[idx]? := by
  intro js
  induction js with
  | nil => intro values _; rfl
  | cons j js ih =>
    intro values h
    have h1 : idx ≠ j := fun e => h (by simp [e])
    have h2 : idx ∉ js := fun e => h (by simp [e])
    rw [List.foldl_cons, ih _ h2, getElem?_toggleIdx_ne (Ne.symm h1)]

/-! ## Structure of the selection pass -/

theorem selectedSuffixes_nil_values {table : List (List Nat)} {v : Nat} :
    selectedSuffixes table [] v = [] := by
  simp [selectedSuffixes]

theorem selectedSuffixes_cons {t : List Nat} {ts : List (List Nat)} {b : Bool}
    {bs : List Bool} {v : Nat} :
    selectedSuffixes (t :: ts) (b :: bs) v =
      if t.head? = some v ∧ b = true ∧ t.tail ≠ [] then t.tail :: selectedSuffixes ts bs v
      else selectedSuffixes ts bs v := by
  simp only [selectedSuffixes, List.zip_cons_cons, List.filter_cons]
  by_cases hh : t.head? = some v
  · cases b
    · simp [hh]
    · by_cases htl : t.tail = []
      · simp [hh, htl, List.filter_cons]
      · simp [hh, htl, List.filter_cons]
  · simp [hh]

theorem mem_selectedSuffixes {v : Nat} :
    ∀ {table : List (List Nat)} {values : List Bool} {s : List Nat},
      s ∈ selectedSuffixes table values v →
      ∃ t, t ∈ table ∧ t.head? = some v ∧ s = t.tail ∧ s ≠ [] := by
  intro table
  induction table with
  | nil => intro values s h; simp [selectedSuffixes] at h
  | cons t ts ih =>
    intro values s h
    match values with
    | [] => simp [selectedSuffixes_nil_values] at h
    | b :: bs =>
      rw [selectedSuffixes_cons] at h
      by_cases hc : t.head? = some v ∧ b = true ∧ t.tail ≠ []
      · rw [if_pos hc] at h
        rcases List.mem_cons.mp h with rfl | h
        · exact ⟨t, by simp, hc.1, rfl, hc.2.2⟩
        · obtain ⟨u, hu, h2, h3, h4⟩ := ih h
          exact ⟨u, by simp [hu], h2, h3, h4⟩
      · rw [if_neg hc] at h
        obtain ⟨u, hu, h2, h3, h4⟩ := ih h
        exact ⟨u, by simp [hu], h2, h3, h4⟩

theorem selectedSuffixes_congr {v : Nat} :
    ∀ (table : List (List Nat)) (values values' : List Bool),
      values.length = values'.length →
      (∀ (i : Nat) (t : List Nat), table[i]? = some t → t.head? = some v → t.tail ≠ [] →
        values[i]? = values'[i]?) →
      selectedSuffixes table values v = selectedSuffixes table values' v := by
  intro table
  induction table with
  | nil => intro values values' _ _; simp [selectedSuffixes]
  | cons t ts ih =>
    intro values values' hlen hpt
    match values, values' with
    | [], [] => rfl
    | [], b' :: bs' => simp at hlen
    | b :: bs, [] => simp at hlen
    | b :: bs, b' :: bs' =>
      have hrest : selectedSuffixes ts bs v = selectedSuffixes ts bs' v := by
        refine ih bs bs' (by simpa using hlen) ?_
        intro i u hu hh htl
        have := hpt (i + 1) u (by simpa using hu) hh htl
        simpa using this
      rw [selectedSuffixes_cons, selectedSuffixes_cons, hrest]
      by_cases hh : t.head? = some v
      · by_cases htl : t.tail = []
        · simp [hh, htl]
        · have hb : b = b' := by
            have := hpt 0 t (by simp) hh htl
            simpa using this
          rw [hb]
      · simp [hh]

theorem collectSuffixes_enumFrom {table : List (List Nat)} {v : Nat}
    (hne : ∀ t ∈ table, t ≠ []) :
    ∀ (values : List Bool) (k : Nat), k + values.length = table.length →
      collectSuffixes table v (List.enumFrom k values) =
        some (selectedSuffixes (table.drop k) values v) := by
  intro values
  induction values with
  | nil =>
    intro k hk
    simp [collectSuffixes, selectedSuffixes]
  | cons b rest ih =>
    intro k hk
    have hklt : k < table.length := by
      simp only [List.length_cons] at hk
      omega
    have hget : table[k]? = some table[k] := List.getElem?_eq_getElem hklt
    have htne : table[k] ≠ [] := hne _ (List.getElem?_mem hget)
    obtain ⟨h, hs, hhead⟩ : ∃ h s, table[k] = h :: s := by
      match hx : table[k] with
      | [] => exact absurd hx htne
      | a :: s => exact ⟨a, s, rfl⟩
    have hrest : collectSuffixes table v (List.enumFrom (k + 1) rest) =
        some (selectedSuffixes (table.drop (k + 1)) rest v) := by
      refine ih (k + 1) ?_
      simp only [List.length_cons] at hk
      omega
    rw [List.enumFrom_cons]
    rw [List.drop_eq_getElem_cons hklt]
    show collectSuffixes table v ((k, b) :: List.enumFrom (k + 1) rest) = _
    rw [collectSuffixes, hget, hhead]
    simp only [List.head?_cons, hrest]
    rw [selectedSuffixes_cons]
    simp only [List.head?_cons, List.tail_cons]
    by_cases hhv : h = v
    · cases b
      · simp [hhv]
      · by_cases hsnil : hs = []
        · simp [hhv, hsnil]
        · simp [hhv, hsnil, List.isEmpty_iff]
    · simp [hhv, Ne.symm]

/-! ## The apply pass and the two-phase characterisation of flip -/

theorem applyToggles_eq_foldl {n : Nat} :
    ∀ (suffixes : List (List Nat)) (values : List Bool),
      (∀ s ∈ suffixes, ∃ j, termToIndex n s = some j ∧ j < values.length) →
      applyToggles n values suffixes =
        some (suffixes.foldl (fun vs s => toggleIdx vs ((termToIndex n s).getD 0)) values) := by
  intro suffixes
  induction suffixes with
  | nil => intro values _; rfl
  | cons s rest ih =>
    intro values hx
    obtain ⟨j, hj, hjlt⟩ := hx s (by simp)
    have hrest : ∀ u ∈ rest, ∃ j', termToIndex n u = some j' ∧ j' < (toggleIdx values j).length := by
      intro u hu
      obtain ⟨j', hj', hlt'⟩ := hx u (by simp [hu])
      exact ⟨j', hj', by rw [length_toggleIdx]; exact hlt'⟩
    rw [List.foldl_cons]
    show (match termToIndex n s with
      | none => none
      | some j => if j < values.length then applyToggles n (toggleIdx values j) rest
        else none) = _
    rw [hj]
    simp only [Option.getD_some]
    show (if j < values.length then applyToggles n (toggleIdx values j) rest else none) = _
    rw [if_pos hjlt, ih (toggleIdx values j) hrest]

theorem tail_mem_indexToTerm {n : Nat} {t : List Nat} (ht : t ∈ indexToTerm n)
    (hne : t.tail ≠ []) : t.tail ∈ indexToTerm n := by
  obtain ⟨-, hnd, hlt⟩ := mem_indexToTerm.mp ht
  refine mem_indexToTerm.mpr ⟨hne, hnd.sublist (List.tail_sublist t), ?_⟩
  intro a ha
  exact hlt a (List.mem_of_mem_tail ha)

theorem tail_head_ne {v : Nat} {t : List Nat} (hnd : t.Nodup) (hth : t.head? = some v)
    (htl : t.tail ≠ []) : t.tail.head? ≠ some v := by
  match t with
  | [] => simp at hth
  | a :: rest =>
    simp only [List.head?_cons, Option.some.injEq] at hth
    subst hth
    match rest with
    | [] => simp at htl
    | b :: rest' =>
      simp only [List.tail_cons, List.head?_cons]
      intro hb
      injection hb with hb
      subst hb
      exact (List.nodup_cons.mp hnd).1 (by simp)

theorem selected_slot_facts {n v : Nat} {values : List Bool} {j : Nat}
    (hj : j ∈ (selectedSuffixes (indexToTerm n) values v).map
      (fun s => (termToIndex n s).getD 0)) :
    ∃ s, (indexToTerm n)[j]? = some s ∧ s.head? ≠ some v := by
  obtain ⟨s, hsS, rfl⟩ := List.mem_map.mp hj
  obtain ⟨t, ht, hth, hstail, hsne⟩ := mem_selectedSuffixes hsS
  have hnd : t.Nodup := (mem_indexToTerm.mp ht).2.1
  have hsmem : s ∈ indexToTerm n := by
    rw [hstail]
    exact tail_mem_indexToTerm ht (hstail ▸ hsne)
  obtain ⟨j', hj', hgj'⟩ := termToIndex_mem hsmem
  rw [hj']
  refine ⟨s, hgj', ?_⟩
  rw [hstail]
  exact tail_head_ne hnd hth (hstail ▸ hsne)

theorem selected_slot_lt {n v : Nat} {values : List Bool} {j : Nat}
    (hj : j ∈ (selectedSuffixes (indexToTerm n) values v).map
      (fun s => (termToIndex n s).getD 0)) :
    j < (indexToTerm n).length := by
  obtain ⟨s, hs, -⟩ := selected_slot_facts hj
  exact (List.getElem?_eq_some_iff.mp hs).1

theorem selected_termToIndex {n v : Nat} {values : List Bool} {s : List Nat}
    (hs : s ∈ selectedSuffixes (indexToTerm n) values v) :
    ∃ j, termToIndex n s = some j ∧ j < (indexToTerm n).length := by
  obtain ⟨t, ht, hth, hstail, hsne⟩ := mem_selectedSuffixes hs
  have hsmem : s ∈ indexToTerm n := by
    rw [hstail]
    exact tail_mem_indexToTerm ht (hstail ▸ hsne)
  obtain ⟨j, hj, hgj⟩ := termToIndex_mem hsmem
  exact ⟨j, hj, (List.getElem?_eq_some_iff.mp hgj).1⟩

theorem Machine.flip?_eq_flipTwoPhase {m : Machine} {v : Nat}
    (hWF : m.WF) (hv : v < m.vars) :
    m.flip? v = some (flipTwoPhase m v) := by
  obtain ⟨i, hi, hget⟩ := termToIndex_mem (singleton_mem_indexToTerm hv)
  have hilt : i < (indexToTerm m.vars).length := (List.getElem?_eq_some_iff.mp hget).1
  have hivlt : i < m.values.length := by rw [hWF]; exact hilt
  have hlen1 : (toggleIdx m.values i).length = (indexToTerm m.vars).length := by
    rw [length_toggleIdx, hWF]
  have hcollect : collectSuffixes (indexToTerm m.vars) v (toggleIdx m.values i).enum =
      some (selectedSuffixes (indexToTerm m.vars) (toggleIdx m.values i) v) := by
    have h0 := @collectSuffixes_enumFrom (indexToTerm m.vars) v
      (fun t ht => ne_nil_of_mem_indexToTerm ht) (toggleIdx m.values i) 0 (by simpa using hlen1)
    simpa [List.enum] using h0
  have happly : applyToggles m.vars (toggleIdx m.values i)
      (selectedSuffixes (indexToTerm m.vars) (toggleIdx m.values i) v) =
      some ((selectedSuffixes (indexToTerm m.vars) (toggleIdx m.values i) v).foldl
        (fun vs s => toggleIdx vs ((termToIndex m.vars s).getD 0)) (toggleIdx m.values i)) := by
    refine applyToggles_eq_foldl _ _ ?_
    intro s hs
    obtain ⟨j, hj, hjlt⟩ := selected_termToIndex hs
    exact ⟨j, hj, by rw [length_toggleIdx, hWF]; exact hjlt⟩
  show (match termToIndex m.vars [v] with
    | none => none
    | some i =>
      if i < m.values.length then
        match collectSuffixes (indexToTerm m.vars) v (toggleIdx m.values i).enum with
        | none => none
        | some suffixes =>
          match applyToggles m.vars (toggleIdx m.values i) suffixes with
          | none => none
          | some values2 => some { vars := m.vars, values := values2 }
      else none) = some (flipTwoPhase m v)
  rw [hi]
  simp only [if_pos hivlt, hcollect, happly]
  simp [flipTwoPhase, hi]

theorem flipTwoPhase_vars (m : Machine) (v : Nat) : (flipTwoPhase m v).vars = m.vars := rfl

theorem flipTwoPhase_values (m : Machine) (v : Nat) :
    (flipTwoPhase m v).values =
      ((selectedSuffixes (indexToTerm m.vars)
          (toggleIdx m.values ((termToIndex m.vars [v]).getD 0)) v).map
        (fun s => (termToIndex m.vars s).getD 0)).foldl toggleIdx
        (toggleIdx m.values ((termToIndex m.vars [v]).getD 0)) := by
  simp only [flipTwoPhase]
  rw [List.foldl_map]

theorem flipTwoPhase_WF {m : Machine} {v : Nat} (hWF : m.WF) : (flipTwoPhase m v).WF := by
  show (flipTwoPhase m v).values.length = (indexToTerm (flipTwoPhase m v).vars).length
  rw [flipTwoPhase_values, flipTwoPhase_vars, length_foldl_toggleIdx, length_toggleIdx]
  exact hWF

theorem singleton_not_in_selected_slots {m : Machine} {v i : Nat} {values : List Bool}
    (hget : (indexToTerm m.vars)[i]? = some [v]) :
    i ∉ (selectedSuffixes (indexToTerm m.vars) values v).map
      (fun s => (termToIndex m.vars s).getD 0) := by
  intro hmem
  obtain ⟨s, hs, hshead⟩ := selected_slot_facts hmem
  rw [hget] at hs
  injection hs with hs
  subst hs
  exact hshead (by simp)

theorem get?_flipTwoPhase {m : Machine} {v : Nat} (hWF : m.WF) (hv : v < m.vars) {b : Bool}
    (hb : m.get? v = some b) : (flipTwoPhase m v).get? v = some (!b) := by
  obtain ⟨i, hi, hget⟩ := termToIndex_mem (singleton_mem_indexToTerm hv)
  have hilt : i < (indexToTerm m.vars).length := (List.getElem?_eq_some_iff.mp hget).1
  have hivlt : i < m.values.length := by rw [hWF]; exact hilt
  have hgd : (termToIndex m.vars [v]).getD 0 = i := by rw [hi]; rfl
  have hb' : m.values[i]? = some b := by
    simp only [Machine.get?, hi] at hb
    exact hb
  have hbD : m.values.getD i false = b := by
    rw [List.getD_eq_getElem?_getD, hb']
    rfl
  show (match termToIndex (flipTwoPhase m v).vars [v] with
    | none => none
    | some i => (flipTwoPhase m v).values[i]?) = some (!b)
  rw [flipTwoPhase_vars, hi]
  show (flipTwoPhase m v).values[i]? = some (!b)
  rw [flipTwoPhase_values, hgd,
    getElem?_foldl_toggleIdx_not_mem _ (singleton_not_in_selected_slots hget),
    getElem?_toggleIdx_self hivlt, hbD]

theorem flipTwoPhase_untouched {m : Machine} {v : Nat} (hv : v < m.vars)
    {idx : Nat} {t : List Nat} (htidx : (indexToTerm m.vars)[idx]? = some t)
    (hhead : t.head? = some v) (hne : t ≠ [v]) :
    (flipTwoPhase m v).values[idx]? = m.values[idx]? := by
  obtain ⟨i, hi, hget⟩ := termToIndex_mem (singleton_mem_indexToTerm hv)
  have hgd : (termToIndex m.vars [v]).getD 0 = i := by rw [hi]; rfl
  have hne_i : idx ≠ i := by
    intro h
    rw [h, hget] at htidx
    injection htidx with htidx
    exact hne htidx.symm
  have hnotJ : idx ∉ (selectedSuffixes (indexToTerm m.vars)
      (toggleIdx m.values ((termToIndex m.vars [v]).getD 0)) v).map
      (fun s => (termToIndex m.vars s).getD 0) := by
    intro hmem
    obtain ⟨s, hs, hshead⟩ := selected_slot_facts hmem
    rw [htidx] at hs
    injection hs with hs
    subst hs
    exact hshead hhead
  rw [flipTwoPhase_values, getElem?_foldl_toggleIdx_not_mem _ hnotJ, hgd,
    getElem?_toggleIdx_ne (Ne.symm hne_i)]

theorem flipTwoPhase_involution {m : Machine} {v : Nat} (hWF : m.WF) (hv : v < m.vars) :
    flipTwoPhase (flipTwoPhase m v) v = m := by
  obtain ⟨i, hi, hget⟩ := termToIndex_mem (singleton_mem_indexToTerm hv)
  have hilt : i < (indexToTerm m.vars).length := (List.getElem?_eq_some_iff.mp hget).1
  have hgd : (termToIndex m.vars [v]).getD 0 = i := by rw [hi]; rfl
  have hm'values : (flipTwoPhase m v).values =
      ((selectedSuffixes (indexToTerm m.vars) (toggleIdx m.values i) v).map
        (fun s => (termToIndex m.vars s).getD 0)).foldl toggleIdx (toggleIdx m.values i) := by
    rw [flipTwoPhase_values, hgd]
  have hS' : selectedSuffixes (indexToTerm m.vars)
      (toggleIdx ((flipTwoPhase m v).values) i) v =
      selectedSuffixes (indexToTerm m.vars) (toggleIdx m.values i) v := by
    refine selectedSuffixes_congr (indexToTerm m.vars) _ _ ?_ ?_
    · rw [length_toggleIdx, hm'values, length_foldl_toggleIdx, length_toggleIdx]
    · intro idx t htidx hhead htl
      have hne_i : idx ≠ i := by
        intro h
        rw [h, hget] at htidx
        injection htidx with htidx
        rw [← htidx] at htl
        simp at htl
      have hnotJ : idx ∉ (selectedSuffixes (indexToTerm m.vars)
          (toggleIdx m.values i) v).map (fun s => (termToIndex m.vars s).getD 0) := by
        intro hmem
        obtain ⟨s, hs, hshead⟩ := selected_slot_facts hmem
        rw [htidx] at hs
        injection hs with hs
        subst hs
        exact hshead hhead
      rw [getElem?_toggleIdx_ne (Ne.symm hne_i), hm'values,
        getElem?_foldl_toggleIdx_not_mem _ hnotJ]
  have hfinal : (flipTwoPhase (flipTwoPhase m v) v).values = m.values := by
    rw [flipTwoPhase_values, flipTwoPhase_vars, hgd, hS', hm'values, toggleIdx_foldl,
      toggleIdx_toggleIdx, foldl_toggleIdx_cancel]
  calc flipTwoPhase (flipTwoPhase m v) v
      = ⟨(flipTwoPhase (flipTwoPhase m v) v).vars,
          (flipTwoPhase (flipTwoPhase m v) v).values⟩ := rfl
    _ = ⟨m.vars, m.values⟩ := by rw [hfinal, flipTwoPhase_vars, flipTwoPhase_vars]
    _ = m := rfl

/-! ## Machine-level helper lemmas -/

theorem Machine.new_WF (n : Nat) (P : List Nat → Bool) : (Machine.new n P).WF := by
  simp [Machine.new, Machine.WF]

theorem Machine.get?_new {n : Nat} (P : List Nat → Bool) {v : Nat} (hv : v < n) :
    (Machine.new n P).get? v = some (P [v]) := by
  obtain ⟨i, hi, hget⟩ := termToIndex_mem (singleton_mem_indexToTerm hv)
  show (match termToIndex n [v] with
    | none => none
    | some i => ((indexToTerm n).map P)[i]?) = some (P [v])
  rw [hi]
  show ((indexToTerm n).map P)[i]? = some (P [v])
  rw [List.getElem?_map, hget]
  rfl

theorem Machine.get?_eq_some {m : Machine} (hWF : m.WF) {v : Nat} (hv : v < m.vars) :
    ∃ b, m.get? v = some b := by
  obtain ⟨i, hi, hget⟩ := termToIndex_mem (singleton_mem_indexToTerm hv)
  have hilt : i < m.values.length := by
    rw [hWF]
    exact (List.getElem?_eq_some_iff.mp hget).1
  refine ⟨m.values[i], ?_⟩
  simp only [Machine.get?, hi]
  exact List.getElem?_eq_getElem hilt

theorem Machine.get?_out_of_range {m : Machine} {v : Nat} (hv : m.vars ≤ v) :
    m.get? v = none := by
  have h : termToIndex m.vars [v] = none :=
    termToIndex_eq_none_iff.mpr (singleton_not_mem_indexToTerm hv)
  simp [Machine.get?, h]

theorem Machine.flip?_out_of_range {m : Machine} {v : Nat} (hv : m.vars ≤ v) :
    m.flip? v = none := by
  have h : termToIndex m.vars [v] = none :=
    termToIndex_eq_none_iff.mpr (singleton_not_mem_indexToTerm hv)
  simp [Machine.flip?, h]

theorem Machine.set?_out_of_range {m : Machine} {v : Nat} (x : Bool) (hv : m.vars ≤ v) :
    m.set? v x = none := by
  simp [Machine.set?, Machine.get?_out_of_range hv]

/-! ## Lemmas about Machine.all -/

theorem multiCartesianProduct_replicate_pos {T : Nat} (h : 0 < T) :
    multiCartesianProduct (List.replicate T [false, true]) =
      listProd (List.replicate T [false, true]) := by
  rw [multiCartesianProduct, if_neg]
  simp only [List.isEmpty_iff, List.replicate_eq_nil_iff]
  omega

theorem signatureLength_pos {n : Nat} (hn : 1 ≤ n) : 0 < signatureLength n := by
  rw [← length_indexToTerm]
  have h0 : [0] ∈ indexToTerm n := singleton_mem_indexToTerm (by omega)
  exact List.length_pos.mpr (List.ne_nil_of_mem h0)

theorem all_map_values {n : Nat} (hn : 1 ≤ n) :
    (Machine.all n).map Machine.values =
      listProd (List.replicate (signatureLength n) [false, true]) := by
  rw [Machine.all, multiCartesianProduct_replicate_pos (signatureLength_pos hn),
    List.map_map]
  have hcongr : ∀ sig ∈ listProd (List.replicate (signatureLength n) [false, true]),
      (Machine.values ∘ fun signature =>
        Machine.mk n ((List.range (indexToTerm n).length).map
          (fun i => signature.getD i false))) sig = id sig := by
    intro sig hsig
    have hlen : sig.length = signatureLength n := mem_listProd_replicate.mp hsig
    show (List.range (indexToTerm n).length).map (fun i => sig.getD i false) = sig
    rw [length_indexToTerm, ← hlen]
    exact map_getD_range
  rw [List.map_congr_left hcongr, List.map_id]

instance (m : Machine) : Decidable m.WF :=
  inferInstanceAs (Decidable (m.values.length = (indexToTerm m.vars).length))

/-! ## Claim theorems -/

/-- Concrete machine of the golden-trace scenario (spec section 8): n = 2,
initial values false except for the term [0, 1]. -/
def scenarioMachine : Machine :=
  Machine.new 2 (fun t => t == [0, 1])

/-- C1: for every machine and every in-range variable, flip performs exactly
the two-phase procedure: first toggle the boolean at the singleton term,
then from the already-mutated value array collect the non-empty suffixes of
every true term whose first element is the variable, the whole set being
determined before any suffix toggle is applied, and finally toggle each
collected suffix slot. -/
theorem claim_C1_flip_two_phase (m : Machine) (v : Nat) (hWF : m.WF) (hv : v < m.vars) :
    m.flip? v = some (flipTwoPhase m v) :=
  Machine.flip?_eq_flipTwoPhase hWF hv

theorem claim_C1_witness :
    scenarioMachine.flip? 0 = some (flipTwoPhase scenarioMachine 0) :=
  claim_C1_flip_two_phase scenarioMachine 0 (by decide) (by decide)

/-- C2: the golden trace. Starting from the n = 2 machine with values
[0] false, [1] false, [0,1] true, [1,0] false, the calls set(0,true),
set(0,false), set(1,true) produce exactly the specified get values after
each step. The intermediate machines are given explicitly. -/
theorem claim_C2_golden_trace :
    scenarioMachine.set? 0 true = some (Machine.mk 2 [true, true, true, false]) ∧
    (Machine.mk 2 [true, true, true, false]).get? 0 = some true ∧
    (Machine.mk 2 [true, true, true, false]).get? 1 = some true ∧
    (Machine.mk 2 [true, true, true, false]).set? 0 false =
      some (Machine.mk 2 [false, false, true, false]) ∧
    (Machine.mk 2 [false, false, true, false]).get? 0 = some false ∧
    (Machine.mk 2 [false, false, true, false]).get? 1 = some false ∧
    (Machine.mk 2 [false, false, true, false]).set? 1 true =
      some (Machine.mk 2 [false, true, true, false]) ∧
    (Machine.mk 2 [false, true, true, false]).get? 0 = some false ∧
    (Machine.mk 2 [false, true, true, false]).get? 1 = some true := by
  decide

/-- C3, counterexample at n = 0: Machine.all 0 is the empty list because
itertools multi_cartesian_product over zero iterators yields no element,
while the claim demands 2 ^ 0 = 1 machines. -/
theorem claim_C3_counterexample :
    ¬ ((Machine.all 0).length = 2 ^ (indexToTerm 0).length) := by
  decide

/-- C3, amended to n ≥ 1: Machine.all n returns exactly 2 ^ |terms n|
machines, with pairwise distinct value arrays covering every boolean
assignment over the term table exactly once, each machine holding
universe size n. -/
theorem claim_C3_all_machines (n : Nat) (hn : 1 ≤ n) :
    (Machine.all n).length = 2 ^ (indexToTerm n).length ∧
    ((Machine.all n).map Machine.values).Nodup ∧
    (∀ l : List Bool, l ∈ (Machine.all n).map Machine.values ↔
      l.length = (indexToTerm n).length) ∧
    ∀ mach ∈ Machine.all n, mach.vars = n := by
  refine ⟨?_, ?_, ?_, ?_⟩
  · have h := congrArg List.length (all_map_values hn)
    rw [List.length_map] at h
    rw [h, listProd_replicate_length, length_indexToTerm]
  · rw [all_map_values hn]
    exact listProd_replicate_nodup _
  · intro l
    rw [all_map_values hn, mem_listProd_replicate, length_indexToTerm]
  · intro mach hmach
    rw [Machine.all] at hmach
    obtain ⟨sig, -, rfl⟩ := List.mem_map.mp hmach
    rfl

theorem claim_C3_witness :
    (Machine.all 1).length = 2 ^ (indexToTerm 1).length ∧
    ((Machine.all 1).map Machine.values).Nodup ∧
    (∀ l : List Bool, l ∈ (Machine.all 1).map Machine.values ↔
      l.length = (indexToTerm 1).length) ∧
    ∀ mach ∈ Machine.all 1, mach.vars = 1 :=
  claim_C3_all_machines 1 (by decide)

/-- C4: for every n the term-to-index map is a bijection between the terms
of the table and the positions 0..|terms n| - 1, consistent with the table
order, and the round trip term to index to term is the identity. -/
theorem claim_C4_bijection (n : Nat) :
    (∀ t ∈ indexToTerm n, ∃ i, termToIndex n t = some i ∧
      i < (indexToTerm n).length ∧ (indexToTerm n)[i]? = some t) ∧
    (∀ i, i < (indexToTerm n).length →
      ∃ t, (indexToTerm n)[i]? = some t ∧ termToIndex n t = some i) := by
  constructor
  · intro t ht
    obtain ⟨i, hi, hget⟩ := termToIndex_mem ht
    exact ⟨i, hi, (List.getElem?_eq_some_iff.mp hget).1, hget⟩
  · intro i hilt
    exact ⟨(indexToTerm n)[i], List.getElem?_eq_getElem hilt,
      termToIndex_of_getElem? (List.getElem?_eq_getElem hilt)⟩

theorem claim_C4_witness :
    (∃ i, termToIndex 2 [0, 1] = some i ∧ i < (indexToTerm 2).length ∧
      (indexToTerm 2)[i]? = some [0, 1]) ∧
    (∃ t, (indexToTerm 2)[3]? = some t ∧ termToIndex 2 t = some 3) :=
  ⟨(claim_C4_bijection 2).1 [0, 1] (by decide), (claim_C4_bijection 2).2 3 (by decide)⟩

/-- C5: the term table for n contains exactly the permutations of the
non-empty subsets of 0..n-1 (the duplicate-free non-empty sequences over
0..n-1), each exactly once; its size is the sum over k = 1..n of
n! / (n - k)!; and it is ordered by increasing length with each length
block in lexicographic order. -/
theorem claim_C5_term_table (n : Nat) :
    (∀ t : List Nat, t ∈ indexToTerm n ↔ t ≠ [] ∧ t.Nodup ∧ ∀ a ∈ t, a < n) ∧
    (indexToTerm n).Nodup ∧
    (indexToTerm n).length = signatureLength n ∧
    (indexToTerm n).Pairwise termOrder :=
  ⟨fun _ => mem_indexToTerm, indexToTerm_nodup n, length_indexToTerm n,
    indexToTerm_pairwise n⟩

theorem claim_C5_witness :
    (([1, 0] : List Nat) ∈ indexToTerm 2 ↔
      ([1, 0] : List Nat) ≠ [] ∧ ([1, 0] : List Nat).Nodup ∧
      ∀ a ∈ ([1, 0] : List Nat), a < 2) ∧
    (indexToTerm 2).length = signatureLength 2 :=
  ⟨(claim_C5_term_table 2).1 [1, 0], (claim_C5_term_table 2).2.2.1⟩

/-- C6: a machine built by Machine.new from a producer P answers
get v = P [v] for every in-range variable v. -/
theorem claim_C6_new_get (n : Nat) (P : List Nat → Bool) (v : Nat) (hv : v < n) :
    (Machine.new n P).get? v = some (P [v]) :=
  Machine.get?_new P hv

theorem claim_C6_witness :
    (Machine.new 2 (fun t => t == [0, 1])).get? 0 =
      some ((fun t : List Nat => t == [0, 1]) [0]) :=
  claim_C6_new_get 2 (fun t => t == [0, 1]) 0 (by decide)

/-- C7: set is idempotent: calling set(v, x) twice leaves the machine in
the same state as calling it once; when get v already equals x the call is
a no-op, and otherwise it delegates to flip v. -/
theorem claim_C7_set_idempotent (m : Machine) (v : Nat) (x : Bool)
    (hWF : m.WF) (hv : v < m.vars) :
    ∃ m', m.set? v x = some m' ∧ m'.set? v x = some m' ∧
      (m.get? v = some x → m' = m) ∧
      (m.get? v ≠ some x → m.set? v x = m.flip? v) := by
  obtain ⟨b, hb⟩ := Machine.get?_eq_some hWF hv
  by_cases hbx : b = x
  · subst hbx
    refine ⟨m, ?_, ?_, fun _ => rfl, ?_⟩
    · simp [Machine.set?, hb]
    · simp [Machine.set?, hb]
    · intro hne
      exact absurd hb hne
  · have hflip := Machine.flip?_eq_flipTwoPhase hWF hv
    have hset : m.set? v x = some (flipTwoPhase m v) := by
      simp only [Machine.set?, hb]
      rw [if_pos hbx]
      exact hflip
    have hx : (!b) = x := by
      cases b <;> cases x <;> simp_all
    have hg2 : (flipTwoPhase m v).get? v = some x := by
      rw [get?_flipTwoPhase hWF hv hb, hx]
    refine ⟨flipTwoPhase m v, hset, ?_, ?_, ?_⟩
    · simp [Machine.set?, hg2]
    · intro hgx
      rw [hb] at hgx
      injection hgx with h
      exact absurd h hbx
    · intro _
      rw [hset, hflip]

theorem claim_C7_witness :
    ∃ m', scenarioMachine.set? 0 true = some m' ∧ m'.set? 0 true = some m' ∧
      (scenarioMachine.get? 0 = some true → m' = scenarioMachine) ∧
      (scenarioMachine.get? 0 ≠ some true →
        scenarioMachine.set? 0 true = scenarioMachine.flip? 0) :=
  claim_C7_set_idempotent scenarioMachine 0 true (by decide) (by decide)

/-- C8: flipping the same in-range variable twice in succession restores
get v to its pre-flip value. -/
theorem claim_C8_flip_flip_get (m : Machine) (v : Nat) (hWF : m.WF) (hv : v < m.vars) :
    ∃ m' m'', m.flip? v = some m' ∧ m'.flip? v = some m'' ∧
      m''.get? v = m.get? v := by
  refine ⟨flipTwoPhase m v, flipTwoPhase (flipTwoPhase m v) v,
    Machine.flip?_eq_flipTwoPhase hWF hv, ?_, ?_⟩
  · exact Machine.flip?_eq_flipTwoPhase (flipTwoPhase_WF hWF) hv
  · rw [flipTwoPhase_involution hWF hv]

theorem claim_C8_witness :
    ∃ m' m'', scenarioMachine.flip? 1 = some m' ∧ m'.flip? 1 = some m'' ∧
      m''.get? 1 = scenarioMachine.get? 1 :=
  claim_C8_flip_flip_get scenarioMachine 1 (by decide) (by decide)

/-- C9: for a variable outside 0..vars-1 (in particular any variable when
vars = 0), get, flip and set do not return normally: the missing-key or
out-of-bounds panic of the Rust code is modelled as none, and no typed
recoverable error value exists. -/
theorem claim_C9_out_of_range (m : Machine) (v : Nat) (x : Bool) (hv : m.vars ≤ v) :
    m.get? v = none ∧ m.flip? v = none ∧ m.set? v x = none :=
  ⟨Machine.get?_out_of_range hv, Machine.flip?_out_of_range hv,
    Machine.set?_out_of_range x hv⟩

theorem claim_C9_witness :
    scenarioMachine.get? 2 = none ∧ scenarioMachine.flip? 2 = none ∧
    scenarioMachine.set? 2 true = none :=
  claim_C9_out_of_range scenarioMachine 2 true (by decide)

/-- C10: flipping the same in-range variable twice restores the entire
value array (the second flip yields exactly the original machine), and the
first flip leaves every slot of a non-singleton term beginning with v
untouched. -/
theorem claim_C10_flip_involution (m : Machine) (v : Nat) (hWF : m.WF) (hv : v < m.vars) :
    ∃ m', m.flip? v = some m' ∧ m'.flip? v = some m ∧
      ∀ (idx : Nat) (t : List Nat), (indexToTerm m.vars)[idx]? = some t →
        t.head? = some v → t ≠ [v] → m'.values[idx]? = m.values[idx]? := by
  refine ⟨flipTwoPhase m v, Machine.flip?_eq_flipTwoPhase hWF hv, ?_, ?_⟩
  · rw [Machine.flip?_eq_flipTwoPhase (flipTwoPhase_WF hWF) hv,
      flipTwoPhase_involution hWF hv]
  · intro idx t h1 h2 h3
    exact flipTwoPhase_untouched hv h1 h2 h3

theorem claim_C10_witness :
    ∃ m', scenarioMachine.flip? 0 = some m' ∧ m'.flip? 0 = some scenarioMachine ∧
      ∀ (idx : Nat) (t : List Nat), (indexToTerm scenarioMachine.vars)[idx]? = some t →
        t.head? = some 0 → t ≠ [0] → m'.values[idx]? = scenarioMachine.values[idx]? :=
  claim_C10_flip_involution scenarioMachine 0 (by decide) (by decide)
